import Mathlib

/-!
Verification development for the zap-ltsv repository (an LTSV encoder for
the zap logging library, plus a stack-trace flattener).

Go strings and byte slices are modelled as `List Nat` (one entry per byte).
ASCII codes that appear throughout: 9 = tab, 10 = newline, 13 = carriage
return, 32 = space, 34 = double quote, 44 = comma, 58 = colon,
91 = opening bracket, 92 = backslash, 93 = closing bracket,
123 = opening brace, 125 = closing brace.
-/

namespace ZapLtsv

/-! ## strings.Replacer

The encoder builds its default escaper with
strings.NewReplacer("\t", "\\t", "\n", "\\n", "\r", "\\r")  (ltsv_encoder.go,
lines 55-59).  `replaceAll` models `Replacer.Replace` for a list of
(pattern, replacement) pairs: scan the input left to right; at each
position, the first pair whose (non-empty) pattern matches is applied and
the scan resumes after the matched pattern; otherwise one byte is copied. -/

/-- If `pat` is a leading segment of `s`, return the rest of `s` after it. -/
def stripPat : List Nat → List Nat → Option (List Nat)
  | [], s => some s
  | _ :: _, [] => none
  | p :: ps, b :: rest => if p = b then stripPat ps rest else none

/-- First (replacement, remainder) among the pairs whose non-empty pattern
matches at the head of `s`. -/
def findPair : List (List Nat × List Nat) → List Nat → Option (List Nat × List Nat)
  | [], _ => none
  | (pat, rep) :: ps, s =>
    match stripPat pat s with
    | some rem => if pat = [] then findPair ps s else some (rep, rem)
    | none => findPair ps s

theorem stripPat_length : ∀ pat s rem, stripPat pat s = some rem →
    rem.length + pat.length = s.length := by
  intro pat
  induction pat with
  | nil => intro s rem h; simp [stripPat] at h; simp [h]
  | cons p ps ih =>
    intro s rem h
    cases s with
    | nil => simp [stripPat] at h
    | cons b rest =>
      simp only [stripPat] at h
      by_cases hpb : p = b
      · rw [if_pos hpb] at h
        have := ih rest rem h
        simp [List.length_cons]; omega
      · rw [if_neg hpb] at h; exact absurd h (by simp)

theorem findPair_length : ∀ ps s rep rem, findPair ps s = some (rep, rem) →
    rem.length < s.length := by
  intro ps
  induction ps with
  | nil => intro s rep rem h; simp [findPair] at h
  | cons pr ps ih =>
    intro s rep rem h
    obtain ⟨pat, rp⟩ := pr
    simp only [findPair] at h
    split at h
    · split at h
      · exact ih s rep rem h
      · rename_i r heq hpat
        have hlen := stripPat_length pat s r heq
        have hne : pat.length ≠ 0 := by simpa using hpat
        have hr : rp = rep ∧ r = rem := by simpa using h
        obtain ⟨-, hr2⟩ := hr
        subst hr2
        omega
    · exact ih s rep rem h

/-- Replacer.Replace: whole-string substitution using the pair table. -/
def replaceAll (prs : List (List Nat × List Nat)) (s : List Nat) : List Nat :=
  match s with
  | [] => []
  | b :: rest =>
    match h : findPair prs (b :: rest) with
    | some (rep, rem) => rep ++ replaceAll prs rem
    | none => b :: replaceAll prs rest
termination_by s.length
decreasing_by
  · exact findPair_length prs (b :: rest) rep rem h
  · simp

/-- The default replacer table of the pooled encoder: tab, newline and
carriage return each become a backslash escape (ltsv_encoder.go 55-59). -/
def ltsvPairs : List (List Nat × List Nat) :=
  [([9], [92, 116]), ([10], [92, 110]), ([13], [92, 114])]

/-- Simple-mode (top-level) escaping: the default replacer applied to a
whole string, as in safeAddString (ltsv_encoder.go 255-257). -/
def ltsvReplace (s : List Nat) : List Nat := replaceAll ltsvPairs s

/-- Per-byte replacement table exactly as the claim describes simple-mode
escaping: tab, newline and carriage return become two-byte escapes, every
other byte passes through unchanged. -/
def escSimpleByte (b : Nat) : List Nat :=
  if b = 9 then [92, 116]
  else if b = 10 then [92, 110]
  else if b = 13 then [92, 114]
  else [b]

theorem replaceAll_cons (prs : List (List Nat × List Nat)) (b : Nat) (rest : List Nat) :
    replaceAll prs (b :: rest) =
      match findPair prs (b :: rest) with
      | some (rep, rem) => rep ++ replaceAll prs rem
      | none => b :: replaceAll prs rest := by
  rw [replaceAll]
  split <;> rename_i heq <;> rw [heq]

theorem ltsvReplace_eq_flatMap (s : List Nat) :
    ltsvReplace s = s.flatMap escSimpleByte := by
  induction s with
  | nil => simp [ltsvReplace, replaceAll]
  | cons b rest ih =>
    have ihr : replaceAll ltsvPairs rest = rest.flatMap escSimpleByte := ih
    by_cases h9 : b = 9
    · subst h9
      rw [ltsvReplace, replaceAll_cons]
      have hfp : findPair ltsvPairs (9 :: rest) = some ([92, 116], rest) := by
        simp [ltsvPairs, findPair, stripPat]
      rw [hfp]
      simp [ihr, escSimpleByte]
    · by_cases h10 : b = 10
      · subst h10
        rw [ltsvReplace, replaceAll_cons]
        have hfp : findPair ltsvPairs (10 :: rest) = some ([92, 110], rest) := by
          simp [ltsvPairs, findPair, stripPat]
        rw [hfp]
        simp [ihr, escSimpleByte]
      · by_cases h13 : b = 13
        · subst h13
          rw [ltsvReplace, replaceAll_cons]
          have hfp : findPair ltsvPairs (13 :: rest) = some ([92, 114], rest) := by
            simp [ltsvPairs, findPair, stripPat]
          rw [hfp]
          simp [ihr, escSimpleByte]
        · rw [ltsvReplace, replaceAll_cons]
          have h9a : (9 : Nat) ≠ b := fun h => h9 h.symm
          have h10a : (10 : Nat) ≠ b := fun h => h10 h.symm
          have h13a : (13 : Nat) ≠ b := fun h => h13 h.symm
          have hfp : findPair ltsvPairs (b :: rest) = none := by
            simp [ltsvPairs, findPair, stripPat, h9a, h10a, h13a]
          rw [hfp]
          simp [ihr, escSimpleByte, h9, h10, h13]

theorem escSimpleByte_escSimpleByte (b : Nat) :
    (escSimpleByte b).flatMap escSimpleByte = escSimpleByte b := by
  by_cases h9 : b = 9
  · subst h9; decide
  · by_cases h10 : b = 10
    · subst h10; decide
    · by_cases h13 : b = 13
      · subst h13; decide
      · simp [escSimpleByte, h9, h10, h13]

theorem flatMap_escSimpleByte_idem (s : List Nat) :
    (s.flatMap escSimpleByte).flatMap escSimpleByte = s.flatMap escSimpleByte := by
  induction s with
  | nil => simp
  | cons b rest ih => simp [List.flatMap_append, escSimpleByte_escSimpleByte, ih]

/-! ## The encoder data model (ltsv_encoder.go, lines 63-71)

The replacer is carried as a whole-string substitution function, the
immutable value that strings.Replacer amounts to. -/

/-- The ltsvEncoder struct: byte buffer, the three labels, the time layout,
the nesting-depth counter and the top-level escaper. -/
structure LtsvEncoder where
  bytes : List Nat
  timeLabel : List Nat
  timeFmt : List Nat
  levelLabel : List Nat
  messageLabel : List Nat
  nestedLevel : Int
  replacer : List Nat → List Nat

/-- The byte string "time". -/
def timeLabelDefault : List Nat := [116, 105, 109, 101]

/-- The byte string "level". -/
def levelLabelDefault : List Nat := [108, 101, 118, 101, 108]

/-- The byte string "msg". -/
def messageLabelDefault : List Nat := [109, 115, 103]

/-- A fresh pooled encoder, as produced by ltsvPool.New (ltsv_encoder.go
49-61): empty buffer, default labels, zero-valued time format, zero nesting
depth, the default replacer.  The sync.Pool is modelled deterministically:
every checkout behaves like a freshly constructed (then truncated)
instance. -/
def poolNew : LtsvEncoder :=
  { bytes := []
    timeLabel := timeLabelDefault
    timeFmt := []
    levelLabel := levelLabelDefault
    messageLabel := messageLabelDefault
    nestedLevel := 0
    replacer := ltsvReplace }

/-- safeAddString (ltsv_encoder.go 255-257): append the replacer-escaped
string to the buffer. -/
def safeAddString (e : LtsvEncoder) (s : List Nat) : LtsvEncoder :=
  { e with bytes := e.bytes ++ e.replacer s }

/-! ## JSON-mode escaping (safeAddJSONString, ltsv_encoder.go 262-295) -/

/-- Lowercase hex digit, as indexing into the constant
_hex = "0123456789abcdef" (ltsv_encoder.go 39). -/
def hexDigitByte (n : Nat) : Nat := if n < 10 then 48 + n else 87 + n

/-- One step of Go unicode/utf8.DecodeRuneInString on a byte string whose
first byte `b` is at least 0x80: `some (chunk, rest)` when a valid
multi-byte encoding starts here (chunk = its bytes), `none` when decoding
fails (Go then reports RuneError with size 1).  A continuation byte lies
in 0x80-0xBF (128-191). -/
def utf8DecodeNext (b : Nat) (rest : List Nat) : Option (List Nat × List Nat) :=
  if 194 ≤ b ∧ b ≤ 223 then
    -- 0xC2-0xDF: two bytes, one continuation byte follows
    match rest with
    | b1 :: r => if 128 ≤ b1 ∧ b1 ≤ 191 then some ([b, b1], r) else none
    | [] => none
  else if b = 224 then
    -- 0xE0: second byte restricted to 0xA0-0xBF
    match rest with
    | b1 :: b2 :: r =>
      if (160 ≤ b1 ∧ b1 ≤ 191) ∧ (128 ≤ b2 ∧ b2 ≤ 191) then
        some ([b, b1, b2], r) else none
    | _ => none
  else if (225 ≤ b ∧ b ≤ 236) ∨ (238 ≤ b ∧ b ≤ 239) then
    -- 0xE1-0xEC, 0xEE-0xEF: three bytes, two continuation bytes
    match rest with
    | b1 :: b2 :: r =>
      if (128 ≤ b1 ∧ b1 ≤ 191) ∧ (128 ≤ b2 ∧ b2 ≤ 191) then
        some ([b, b1, b2], r) else none
    | _ => none
  else if b = 237 then
    -- 0xED: second byte restricted to 0x80-0x9F (no surrogates)
    match rest with
    | b1 :: b2 :: r =>
      if (128 ≤ b1 ∧ b1 ≤ 159) ∧ (128 ≤ b2 ∧ b2 ≤ 191) then
        some ([b, b1, b2], r) else none
    | _ => none
  else if b = 240 then
    -- 0xF0: second byte restricted to 0x90-0xBF
    match rest with
    | b1 :: b2 :: b3 :: r =>
      if (144 ≤ b1 ∧ b1 ≤ 191) ∧ (128 ≤ b2 ∧ b2 ≤ 191) ∧ (128 ≤ b3 ∧ b3 ≤ 191) then
        some ([b, b1, b2, b3], r) else none
    | _ => none
  else if 241 ≤ b ∧ b ≤ 243 then
    -- 0xF1-0xF3: four bytes, three continuation bytes
    match rest with
    | b1 :: b2 :: b3 :: r =>
      if (128 ≤ b1 ∧ b1 ≤ 191) ∧ (128 ≤ b2 ∧ b2 ≤ 191) ∧ (128 ≤ b3 ∧ b3 ≤ 191) then
        some ([b, b1, b2, b3], r) else none
    | _ => none
  else if b = 244 then
    -- 0xF4: second byte restricted to 0x80-0x8F (codepoints up to 0x10FFFF)
    match rest with
    | b1 :: b2 :: b3 :: r =>
      if (128 ≤ b1 ∧ b1 ≤ 143) ∧ (128 ≤ b2 ∧ b2 ≤ 191) ∧ (128 ≤ b3 ∧ b3 ≤ 191) then
        some ([b, b1, b2, b3], r) else none
    | _ => none
  else
    -- 0x80-0xC1 and 0xF5-0xFF can not start an encoding
    none

theorem utf8DecodeNext_spec (b : Nat) (rest chunk r : List Nat)
    (h : utf8DecodeNext b rest = some (chunk, r)) :
    b :: rest = chunk ++ r ∧ chunk ≠ [] ∧ ∀ x ∈ chunk, 128 ≤ x ∧ x ≤ 244 := by
  unfold utf8DecodeNext at h
  split_ifs at h <;> split at h <;> (try split_ifs at h) <;>
    (try exact Option.noConfusion h) <;>
    (rw [Option.some.injEq, Prod.mk.injEq] at h
     obtain ⟨hc, hr⟩ := h
     subst hc
     subst hr
     refine ⟨rfl, by simp, ?_⟩
     intro x hx
     fin_cases hx <;> omega)


/-- The bytes appended by safeAddJSONString (ltsv_encoder.go 262-295) for
input `s`: ASCII printable bytes other than backslash and quote are copied;
backslash and quote get a leading backslash; newline, carriage return and
tab use short escapes; other bytes below 0x20 become lowercase hex escapes;
an invalid UTF-8 byte becomes the escape for U+FFFD and the scan advances
one byte; a valid multi-byte encoding is copied through unchanged. -/
def jsonEscape (s : List Nat) : List Nat :=
  match s with
  | [] => []
  | b :: rest =>
    if b < 128 then
      (if 32 ≤ b ∧ b ≠ 92 ∧ b ≠ 34 then [b]
       else if b = 92 ∨ b = 34 then [92, b]
       else if b = 10 then [92, 110]
       else if b = 13 then [92, 114]
       else if b = 9 then [92, 116]
       else [92, 117, 48, 48, hexDigitByte (b / 16), hexDigitByte (b % 16)]) ++
      jsonEscape rest
    else
      match h : utf8DecodeNext b rest with
      | none =>
        -- the escape for U+FFFD, then advance one byte
        [92, 117, 102, 102, 102, 100] ++ jsonEscape rest
      | some (chunk, r) => chunk ++ jsonEscape r
termination_by s.length
decreasing_by
  · simp
  · simp
  · obtain ⟨he, hne, -⟩ := utf8DecodeNext_spec b rest chunk r h
    have hl := congrArg List.length he
    simp only [List.length_cons, List.length_append] at hl
    have hp : 0 < chunk.length := List.length_pos.mpr hne
    simp only [List.length_cons]
    omega

/-- safeAddJSONString itself: append the JSON-escaped bytes. -/
def safeAddJSONString (e : LtsvEncoder) (s : List Nat) : LtsvEncoder :=
  { e with bytes := e.bytes ++ jsonEscape s }

/-- The reference normalization the claim describes for the round trip:
the input with every byte at which UTF-8 decoding fails replaced by the
UTF-8 encoding of the replacement character U+FFFD (bytes EF BF BD). -/
def utf8Sanitize (s : List Nat) : List Nat :=
  match s with
  | [] => []
  | b :: rest =>
    if b < 128 then b :: utf8Sanitize rest
    else
      match h : utf8DecodeNext b rest with
      | none => [239, 191, 189] ++ utf8Sanitize rest
      | some (chunk, r) => chunk ++ utf8Sanitize r
termination_by s.length
decreasing_by
  · simp
  · simp
  · obtain ⟨he, hne, -⟩ := utf8DecodeNext_spec b rest chunk r h
    have hl := congrArg List.length he
    simp only [List.length_cons, List.length_append] at hl
    have hp : 0 < chunk.length := List.length_pos.mpr hne
    simp only [List.length_cons]
    omega

/-- Numeric value of one hex digit byte (either case accepted). -/
def hexVal (c : Nat) : Option Nat :=
  if 48 ≤ c ∧ c ≤ 57 then some (c - 48)
  else if 97 ≤ c ∧ c ≤ 102 then some (c - 87)
  else if 65 ≤ c ∧ c ≤ 70 then some (c - 55)
  else none

/-- Value of a four-hex-digit escape payload. -/
def hex4 (a b c d : Nat) : Option Nat :=
  match hexVal a, hexVal b, hexVal c, hexVal d with
  | some x, some y, some z, some w => some (4096 * x + 256 * y + 16 * z + w)
  | _, _, _, _ => none

/-- Standard UTF-8 encoding of a code point. -/
def utf8Encode (c : Nat) : List Nat :=
  if c < 128 then [c]
  else if c < 2048 then [192 + c / 64, 128 + c % 64]
  else if c < 65536 then [224 + c / 4096, 128 + (c / 64) % 64, 128 + c % 64]
  else [240 + c / 262144, 128 + (c / 4096) % 64, 128 + (c / 64) % 64, 128 + c % 64]

/-- Decode one JSON backslash escape: given the bytes after a backslash,
return the decoded bytes and how many input bytes were consumed.  Handles
the short escapes, and the 4-hex-digit u-form with surrogate-pair
lookahead; a lone surrogate decodes to U+FFFD (as Go encoding/json
does). -/
def parseEscape (r : List Nat) : Option (List Nat × Nat) :=
  match r with
  | [] => none
  | e :: t =>
    if e = 34 then some ([34], 1)
    else if e = 92 then some ([92], 1)
    else if e = 47 then some ([47], 1)
    else if e = 98 then some ([8], 1)
    else if e = 102 then some ([12], 1)
    else if e = 110 then some ([10], 1)
    else if e = 114 then some ([13], 1)
    else if e = 116 then some ([9], 1)
    else if e = 117 then
      match t with
      | d1 :: d2 :: d3 :: d4 :: t2 =>
        (hex4 d1 d2 d3 d4).bind fun c1 =>
          if 55296 ≤ c1 ∧ c1 < 56320 then
            match t2 with
            | 92 :: 117 :: e1 :: e2 :: e3 :: e4 :: _ =>
              match hex4 e1 e2 e3 e4 with
              | some c2 =>
                if 56320 ≤ c2 ∧ c2 < 57344 then
                  some (utf8Encode (65536 + (c1 - 55296) * 1024 + (c2 - 56320)), 11)
                else some (utf8Encode 65533, 5)
              | none => some (utf8Encode 65533, 5)
            | _ => some (utf8Encode 65533, 5)
          else if 56320 ≤ c1 ∧ c1 < 57344 then some (utf8Encode 65533, 5)
          else some (utf8Encode c1, 5)
      | _ => none
    else none

/-- Standard JSON string-body unescaping to a byte string: a backslash
starts an escape decoded by parseEscape, every other byte is copied
through; `none` on a malformed escape. -/
def jsonUnescape (s : List Nat) : Option (List Nat) :=
  match s with
  | [] => some []
  | b :: rest =>
    if b = 92 then
      match parseEscape rest with
      | none => none
      | some (out, k) => (jsonUnescape (rest.drop k)).map (fun l => out ++ l)
    else (jsonUnescape rest).map (fun l => b :: l)
termination_by s.length
decreasing_by
  · simp only [List.length_drop, List.length_cons]
    omega
  · simp

theorem hexVal_hexDigit (n : Nat) (h : n < 16) : hexVal (hexDigitByte n) = some n := by
  unfold hexVal hexDigitByte
  by_cases h10 : n < 10
  · rw [if_pos h10, if_pos (by omega)]
    congr 1
    omega
  · rw [if_neg h10, if_neg (by omega), if_pos (by omega)]
    congr 1
    omega

theorem jsonUnescape_literal (c : List Nat) (X : List Nat) (hc : ∀ x ∈ c, x ≠ 92) :
    jsonUnescape (c ++ X) = (jsonUnescape X).map (fun l => c ++ l) := by
  induction c with
  | nil => cases h : jsonUnescape X <;> simp [h]
  | cons x c ih =>
    have hx : x ≠ 92 := hc x (by simp)
    have ihc : jsonUnescape (c ++ X) = (jsonUnescape X).map (fun l => c ++ l) :=
      ih (fun y hy => hc y (by simp [hy]))
    simp only [List.cons_append, jsonUnescape]
    rw [if_neg hx, ihc]
    cases jsonUnescape X <;> simp

theorem jsonEscape_cons_ascii (b : Nat) (rest : List Nat) (h : b < 128) :
    jsonEscape (b :: rest) =
      (if 32 ≤ b ∧ b ≠ 92 ∧ b ≠ 34 then [b]
       else if b = 92 ∨ b = 34 then [92, b]
       else if b = 10 then [92, 110]
       else if b = 13 then [92, 114]
       else if b = 9 then [92, 116]
       else [92, 117, 48, 48, hexDigitByte (b / 16), hexDigitByte (b % 16)]) ++
      jsonEscape rest := by
  rw [jsonEscape, if_pos h]

theorem jsonEscape_cons_invalid (b : Nat) (rest : List Nat) (h1 : ¬b < 128)
    (h2 : utf8DecodeNext b rest = none) :
    jsonEscape (b :: rest) = [92, 117, 102, 102, 102, 100] ++ jsonEscape rest := by
  rw [jsonEscape, if_neg h1]
  split
  · rfl
  · rename_i c r heq
    rw [h2] at heq
    exact Option.noConfusion heq

theorem jsonEscape_cons_valid (b : Nat) (rest chunk r : List Nat) (h1 : ¬b < 128)
    (h2 : utf8DecodeNext b rest = some (chunk, r)) :
    jsonEscape (b :: rest) = chunk ++ jsonEscape r := by
  rw [jsonEscape, if_neg h1]
  split
  · rename_i heq
    rw [h2] at heq
    exact Option.noConfusion heq
  · rename_i c r2 heq
    rw [h2] at heq
    obtain ⟨hc, hr⟩ := by simpa using heq
    rw [hc, hr]

theorem utf8Sanitize_cons_ascii (b : Nat) (rest : List Nat) (h : b < 128) :
    utf8Sanitize (b :: rest) = b :: utf8Sanitize rest := by
  rw [utf8Sanitize, if_pos h]

theorem utf8Sanitize_cons_invalid (b : Nat) (rest : List Nat) (h1 : ¬b < 128)
    (h2 : utf8DecodeNext b rest = none) :
    utf8Sanitize (b :: rest) = [239, 191, 189] ++ utf8Sanitize rest := by
  rw [utf8Sanitize, if_neg h1]
  split
  · rfl
  · rename_i c r heq
    rw [h2] at heq
    exact Option.noConfusion heq

theorem utf8Sanitize_cons_valid (b : Nat) (rest chunk r : List Nat) (h1 : ¬b < 128)
    (h2 : utf8DecodeNext b rest = some (chunk, r)) :
    utf8Sanitize (b :: rest) = chunk ++ utf8Sanitize r := by
  rw [utf8Sanitize, if_neg h1]
  split
  · rename_i heq
    rw [h2] at heq
    exact Option.noConfusion heq
  · rename_i c r2 heq
    rw [h2] at heq
    obtain ⟨hc, hr⟩ := by simpa using heq
    rw [hc, hr]

theorem hex4_digits (b : Nat) (h : b < 128) :
    hex4 48 48 (hexDigitByte (b / 16)) (hexDigitByte (b % 16)) = some b := by
  unfold hex4
  rw [hexVal_hexDigit (b / 16) (by omega), hexVal_hexDigit (b % 16) (by omega)]
  have h48 : hexVal 48 = some 0 := by decide
  rw [h48]
  simp only [Option.some.injEq]
  omega

theorem jsonUnescape_cons_plain (b : Nat) (t : List Nat) (hb : b ≠ 92) :
    jsonUnescape (b :: t) = (jsonUnescape t).map (fun l => b :: l) := by
  rw [jsonUnescape, if_neg hb]

theorem jsonUnescape_cons_esc (t out : List Nat) (k : Nat)
    (h : parseEscape t = some (out, k)) :
    jsonUnescape (92 :: t) = (jsonUnescape (t.drop k)).map (fun l => out ++ l) := by
  rw [jsonUnescape, if_pos rfl]
  split
  · rename_i heq
    rw [h] at heq
    exact Option.noConfusion heq
  · rename_i o2 k2 heq
    rw [h] at heq
    obtain ⟨ho, hk⟩ := by simpa using heq
    rw [ho, hk]

/-- C3: JSON-mode escaping of any byte string, followed by standard
JSON-string unescaping, reproduces the input except that each byte at
which UTF-8 decoding fails comes back as the replacement character U+FFFD
(the escaper emits its escape and advances exactly one byte past the
offending byte). -/
theorem claim_C3_json_escape_roundtrip (s : List Nat) :
    jsonUnescape (jsonEscape s) = some (utf8Sanitize s) := by
  induction s using jsonEscape.induct with
  | case1 =>
    rw [jsonEscape, utf8Sanitize, jsonUnescape]
  | case2 b rest h ih =>
    rw [jsonEscape_cons_ascii b rest h, utf8Sanitize_cons_ascii b rest h]
    by_cases hA : 32 ≤ b ∧ b ≠ 92 ∧ b ≠ 34
    · rw [if_pos hA]
      simp only [List.singleton_append]
      rw [jsonUnescape_cons_plain b _ hA.2.1, ih]
      rfl
    · rw [if_neg hA]
      by_cases hB : b = 92 ∨ b = 34
      · rw [if_pos hB]
        have hpe : parseEscape (b :: jsonEscape rest) = some ([b], 1) := by
          rcases hB with rfl | rfl <;> simp [parseEscape]
        simp only [List.cons_append, List.nil_append]
        rw [jsonUnescape_cons_esc _ _ _ hpe]
        simp only [List.drop_succ_cons, List.drop_zero]
        rw [ih]
        rfl
      · rw [if_neg hB]
        by_cases h10 : b = 10
        · subst h10
          rw [if_pos rfl]
          have hpe : parseEscape (110 :: jsonEscape rest) = some ([10], 1) := by
            simp [parseEscape]
          simp only [List.cons_append, List.nil_append]
          rw [jsonUnescape_cons_esc _ _ _ hpe]
          simp only [List.drop_succ_cons, List.drop_zero]
          rw [ih]
          rfl
        · rw [if_neg h10]
          by_cases h13 : b = 13
          · subst h13
            rw [if_pos rfl]
            have hpe : parseEscape (114 :: jsonEscape rest) = some ([13], 1) := by
              simp [parseEscape]
            simp only [List.cons_append, List.nil_append]
            rw [jsonUnescape_cons_esc _ _ _ hpe]
            simp only [List.drop_succ_cons, List.drop_zero]
            rw [ih]
            rfl
          · rw [if_neg h13]
            by_cases h9 : b = 9
            · subst h9
              rw [if_pos rfl]
              have hpe : parseEscape (116 :: jsonEscape rest) = some ([9], 1) := by
                simp [parseEscape]
              simp only [List.cons_append, List.nil_append]
              rw [jsonUnescape_cons_esc _ _ _ hpe]
              simp only [List.drop_succ_cons, List.drop_zero]
              rw [ih]
              rfl
            · rw [if_neg h9]
              have hb32 : b < 32 := by
                rcases Nat.lt_or_ge b 32 with h1 | h1
                · exact h1
                · exact absurd ⟨h1, fun hh => hB (Or.inl hh), fun hh => hB (Or.inr hh)⟩ hA
              have hpe : parseEscape (117 :: 48 :: 48 :: hexDigitByte (b / 16) ::
                  hexDigitByte (b % 16) :: jsonEscape rest) = some ([b], 5) := by
                unfold parseEscape
                norm_num
                rw [hex4_digits b h]
                simp only [Option.some_bind]
                rw [if_neg (by omega), if_neg (by omega)]
                unfold utf8Encode
                rw [if_pos (by omega)]
              simp only [List.cons_append, List.nil_append]
              rw [jsonUnescape_cons_esc _ _ _ hpe]
              simp only [List.drop_succ_cons, List.drop_zero]
              rw [ih]
              rfl
  | case3 b rest h1 h2 ih =>
    rw [jsonEscape_cons_invalid b rest h1 h2, utf8Sanitize_cons_invalid b rest h1 h2]
    have hpe : parseEscape (117 :: 102 :: 102 :: 102 :: 100 :: jsonEscape rest) =
        some ([239, 191, 189], 5) := by
      unfold parseEscape
      norm_num
      rw [show hex4 102 102 102 100 = some 65533 from by decide]
      simp only [Option.some_bind]
      rw [if_neg (by omega), if_neg (by omega)]
      rw [show utf8Encode 65533 = [239, 191, 189] from by decide]
    simp only [List.cons_append, List.nil_append]
    rw [jsonUnescape_cons_esc _ _ _ hpe]
    simp only [List.drop_succ_cons, List.drop_zero]
    rw [ih]
    rfl
  | case4 b rest h1 chunk r h2 ih =>
    rw [jsonEscape_cons_valid b rest chunk r h1 h2, utf8Sanitize_cons_valid b rest chunk r h1 h2]
    obtain ⟨-, -, hmem⟩ := utf8DecodeNext_spec b rest chunk r h2
    have hno : ∀ x ∈ chunk, x ≠ 92 := fun x hx => by
      have := hmem x hx
      omega
    rw [jsonUnescape_literal chunk _ hno, ih]
    rfl

/-- C2: simple-mode (top-level) escaping replaces each tab byte with the
two-byte sequence backslash-t, each newline with backslash-n, each
carriage return with backslash-r, and passes every other byte through
unchanged; applying it twice gives the same result as applying it once. -/
theorem claim_C2_simple_escape (s : List Nat) :
    ltsvReplace s = s.flatMap escSimpleByte ∧
      ltsvReplace (ltsvReplace s) = ltsvReplace s := by
  refine ⟨ltsvReplace_eq_flatMap s, ?_⟩
  rw [ltsvReplace_eq_flatMap s, ltsvReplace_eq_flatMap (s.flatMap escSimpleByte)]
  exact flatMap_escSimpleByte_idem s

/-! ## Field accumulator operations (ltsv_encoder.go 97-155, 203-220) -/

/-- addKey (ltsv_encoder.go 203-220).  At nesting depth > 0: a comma if the
buffer is non-empty and does not end in an opening brace, then the
JSON-escaped key in quotes and a colon.  At depth 0: a tab if the buffer is
non-empty, then the replacer-escaped key and a colon. -/
def addKey (e : LtsvEncoder) (key : List Nat) : LtsvEncoder :=
  if 0 < e.nestedLevel then
    let e1 := if e.bytes ≠ [] ∧ e.bytes.getLast? ≠ some 123 then
      { e with bytes := e.bytes ++ [44] } else e
    let e2 := { e1 with bytes := e1.bytes ++ [34] }
    let e3 := safeAddJSONString e2 key
    { e3 with bytes := e3.bytes ++ [34, 58] }
  else
    let e1 := if e.bytes ≠ [] then { e with bytes := e.bytes ++ [9] } else e
    let e2 := safeAddString e1 key
    { e2 with bytes := e2.bytes ++ [58] }

/-- AddString (ltsv_encoder.go 97-106): the key, then at depth > 0 the
JSON-escaped value in quotes, at depth 0 the replacer-escaped value. -/
def addString (e : LtsvEncoder) (key val : List Nat) : LtsvEncoder :=
  let e1 := addKey e key
  if 0 < e.nestedLevel then
    let e2 := { e1 with bytes := e1.bytes ++ [34] }
    let e3 := safeAddJSONString e2 val
    { e3 with bytes := e3.bytes ++ [34] }
  else
    safeAddString e1 val

/-- The state of the encoder right before AddMarshaler invokes the
caller-supplied callback: the key has been added, the nesting depth
incremented and the opening brace appended (ltsv_encoder.go 143-145). -/
def marshalStage (e : LtsvEncoder) (key : List Nat) : LtsvEncoder :=
  let e1 := addKey e key
  let e2 := { e1 with nestedLevel := e1.nestedLevel + 1 }
  { e2 with bytes := e2.bytes ++ [123] }

/-- AddMarshaler (ltsv_encoder.go 142-150): the key, nesting depth up, an
opening brace, the caller-supplied marshal callback on the same encoder, a
closing brace, nesting depth down; the callback's error (a Go error value,
modelled as a Nat token) is returned as is. -/
def addMarshaler (e : LtsvEncoder) (key : List Nat)
    (f : LtsvEncoder → LtsvEncoder × Option Nat) : LtsvEncoder × Option Nat :=
  let p := f (marshalStage e key)
  let e4 := { p.1 with bytes := p.1.bytes ++ [125] }
  let e5 := { e4 with nestedLevel := e4.nestedLevel - 1 }
  (e5, p.2)

/-! ## The entry writer (WriteEntry, ltsv_encoder.go 170-197) -/

/-- zap's log levels are signed integers; the six named levels of the
version this code builds against are Debug = -1, Info = 0, Warn = 1,
Error = 2, Panic = 3, Fatal = 4 (the level switch in addLevel compares
against the named constants only). -/
def debugLevel : Int := -1

def infoLevel : Int := 0

def warnLevel : Int := 1

def errorLevel : Int := 2

def panicLevel : Int := 3

def fatalLevel : Int := 4

/-- Decimal digits of a natural number (fuel-based long division). -/
def natDigitsAux : Nat → Nat → List Nat → List Nat
  | 0, _, acc => acc
  | fuel + 1, n, acc => if n = 0 then acc else natDigitsAux fuel (n / 10) ((48 + n % 10) :: acc)

/-- Decimal ASCII rendering of a natural number. -/
def natDecimal (n : Nat) : List Nat :=
  if n = 0 then [48] else natDigitsAux n n []

/-- Decimal ASCII rendering of a Go int64, as strconv.AppendInt does. -/
def intDecimal (i : Int) : List Nat :=
  if i < 0 then 45 :: natDecimal i.natAbs else natDecimal i.toNat

/-- The level bytes appended by addLevel (ltsv_encoder.go 224-239): a
single-letter code for the six named levels, the decimal integer value
otherwise. -/
def levelBytes (lvl : Int) : List Nat :=
  if lvl = debugLevel then [68]
  else if lvl = infoLevel then [73]
  else if lvl = warnLevel then [87]
  else if lvl = errorLevel then [69]
  else if lvl = panicLevel then [80]
  else if lvl = fatalLevel then [70]
  else intDecimal lvl

/-- An abstract timestamp (time.Time). -/
structure GoTime where
  tick : Nat

/-- addLevel (ltsv_encoder.go 222-240): the receiver reads its level label,
the pooled target accumulates the key and the level bytes.  The pair keeps
both encoders explicit (receiver first). -/
def addLevel (enc final : LtsvEncoder) (lvl : Int) : LtsvEncoder × LtsvEncoder :=
  let f1 := addKey final enc.levelLabel
  (enc, { f1 with bytes := f1.bytes ++ levelBytes lvl })

/-- addTime (ltsv_encoder.go 242-248): nothing when the configured layout
is empty, otherwise the time label and the formatted time.  The Go
time.Time.AppendFormat function is kept abstract as the parameter
`fmtTime`. -/
def addTime (fmtTime : GoTime → List Nat → List Nat) (enc final : LtsvEncoder)
    (t : GoTime) : LtsvEncoder × LtsvEncoder :=
  if enc.timeFmt = [] then (enc, final)
  else
    let f1 := addKey final enc.timeLabel
    (enc, { f1 with bytes := f1.bytes ++ fmtTime t enc.timeFmt })

/-- addMessage (ltsv_encoder.go 250-253): the message label and the
replacer-escaped message on the target accumulator. -/
def addMessage (enc final : LtsvEncoder) (msg : List Nat) : LtsvEncoder × LtsvEncoder :=
  let f1 := addKey final enc.messageLabel
  (enc, safeAddString f1 msg)

/-- The composition phase of WriteEntry (ltsv_encoder.go 175-185): a second
pooled accumulator is checked out and truncated, time, level and message
are appended, then a tab and the source buffer when the source buffer is
non-empty, then the newline.  Returns (source encoder as left by the
helpers, composed accumulator). -/
def composeEntry (fmtTime : GoTime → List Nat → List Nat) (enc : LtsvEncoder)
    (msg : List Nat) (lvl : Int) (t : GoTime) : LtsvEncoder × LtsvEncoder :=
  let final0 := { poolNew with bytes := [] }
  let p1 := addTime fmtTime enc final0 t
  let p2 := addLevel p1.1 p1.2 lvl
  let p3 := addMessage p2.1 p2.2 msg
  let f4 := if p3.1.bytes = [] then p3.2
    else { p3.2 with bytes := p3.2.bytes ++ 9 :: p3.1.bytes }
  (p3.1, { f4 with bytes := f4.bytes ++ [10] })

/-- A write sink (io.Writer): either absent (nil), or a function from the
written bytes to the (count, error) pair the Write call returns.  Go
errors are abstract tokens, modelled as Nat. -/
inductive Sink where
  | nil : Sink
  | writer : (List Nat → Nat × Option Nat) → Sink

/-- The errors WriteEntry can return. -/
inductive WriteError where
  | nilSink : WriteError
  | sinkError : Nat → WriteError
  | incompleteWrite : Nat → Nat → WriteError
deriving DecidableEq

/-- The observable outcome of a WriteEntry call: the returned error (none
for success), the payloads of the sink Write calls made, the state of the
receiver encoder when the call returns, and whether the temporary composed
accumulator was returned to the pool. -/
structure WriteResult where
  err : Option WriteError
  writes : List (List Nat)
  encAfter : LtsvEncoder
  finalFreed : Bool

/-- WriteEntry (ltsv_encoder.go 170-197): fail on a nil sink before
touching it; otherwise compose the line in a pooled accumulator, hand its
bytes to the sink in one Write call, free the accumulator, then return the
sink's error if any, an incomplete-write error if the count differs from
the byte length, and success otherwise. -/
def writeEntry (fmtTime : GoTime → List Nat → List Nat) (enc : LtsvEncoder)
    (sink : Sink) (msg : List Nat) (lvl : Int) (t : GoTime) : WriteResult :=
  match sink with
  | Sink.nil => ⟨some WriteError.nilSink, [], enc, false⟩
  | Sink.writer w =>
    let p := composeEntry fmtTime enc msg lvl t
    let line := p.2.bytes
    let expected := line.length
    let r := w line
    match r.2 with
    | some e => ⟨some (WriteError.sinkError e), [line], p.1, true⟩
    | none =>
      if r.1 ≠ expected then
        ⟨some (WriteError.incompleteWrite r.1 expected), [line], p.1, true⟩
      else ⟨none, [line], p.1, true⟩

/-! ## Claim-side description of the composed line -/

/-- One top-level LTSV field as the output grammar describes it: the
(simple-mode escaped) label, a colon, the value bytes. -/
def ltsvField (label value : List Nat) : List Nat := ltsvReplace label ++ 58 :: value

/-- The level value exactly as the claim words it: the single-letter code
D/I/W/E/P/F for the six named levels, the decimal integer value of the
level otherwise. -/
def claimedLevelValue (lvl : Int) : List Nat :=
  if lvl = debugLevel then [68]
  else if lvl = infoLevel then [73]
  else if lvl = warnLevel then [87]
  else if lvl = errorLevel then [69]
  else if lvl = panicLevel then [80]
  else if lvl = fatalLevel then [70]
  else intDecimal lvl

/-- The one line claim C1 predicts WriteEntry writes: the time field
(omitted entirely when the time layout is empty), the level field, the
message field, tab-separated; then a tab and the source buffer exactly
when that buffer is non-empty; then one newline. -/
def claimedLine (fmtTime : GoTime → List Nat → List Nat) (enc : LtsvEncoder)
    (msg : List Nat) (lvl : Int) (t : GoTime) : List Nat :=
  (if enc.timeFmt = [] then []
   else ltsvField enc.timeLabel (fmtTime t enc.timeFmt) ++ [9]) ++
  ltsvField enc.levelLabel (claimedLevelValue lvl) ++ [9] ++
  ltsvField enc.messageLabel (ltsvReplace msg) ++
  (if enc.bytes = [] then [] else 9 :: enc.bytes) ++ [10]

theorem composeEntry_bytes (fmtTime : GoTime → List Nat → List Nat) (enc : LtsvEncoder)
    (msg : List Nat) (lvl : Int) (t : GoTime) :
    (composeEntry fmtTime enc msg lvl t).2.bytes = claimedLine fmtTime enc msg lvl t := by
  have hlev : ∀ l : Int, levelBytes l = claimedLevelValue l := fun _ => rfl
  by_cases htf : enc.timeFmt = [] <;> by_cases hbs : enc.bytes = [] <;>
    simp [composeEntry, addTime, addLevel, addMessage, addKey, safeAddString, poolNew,
      claimedLine, ltsvField, hlev, htf, hbs]

theorem composeEntry_receiver (fmtTime : GoTime → List Nat → List Nat) (enc : LtsvEncoder)
    (msg : List Nat) (lvl : Int) (t : GoTime) :
    (composeEntry fmtTime enc msg lvl t).1 = enc := by
  unfold composeEntry addTime addLevel addMessage
  split <;> rfl

/-- C1: WriteEntry with a non-nil sink makes exactly one write, whose
payload is the composed line the specification describes: optional time
field, level field with the letter code or the decimal level, message
field with the simple-mode-escaped message, tab-separated, then a tab and
the accumulated field bytes exactly when the source buffer is non-empty,
terminated by a single newline. -/
theorem claim_C1_write_entry_line (fmtTime : GoTime → List Nat → List Nat)
    (enc : LtsvEncoder) (w : List Nat → Nat × Option Nat) (msg : List Nat)
    (lvl : Int) (t : GoTime) :
    (writeEntry fmtTime enc (Sink.writer w) msg lvl t).writes =
      [claimedLine fmtTime enc msg lvl t] := by
  have hb := composeEntry_bytes fmtTime enc msg lvl t
  simp only [writeEntry]
  split <;> (try split) <;> simp [hb]

/-- C6: WriteEntry with a nil sink returns the nil-sink error, never
invokes the sink and produces no bytes. -/
theorem claim_C6_nil_sink (fmtTime : GoTime → List Nat → List Nat) (enc : LtsvEncoder)
    (msg : List Nat) (lvl : Int) (t : GoTime) :
    (writeEntry fmtTime enc Sink.nil msg lvl t).err = some WriteError.nilSink ∧
      (writeEntry fmtTime enc Sink.nil msg lvl t).writes = [] :=
  ⟨rfl, rfl⟩

/-- C10: WriteEntry leaves the receiver encoder exactly as it was — the
composition happens in a separate pooled instance, so the buffer, labels,
time format, nesting depth and escaper of the source accumulator are
unchanged on every path. -/
theorem claim_C10_receiver_unchanged (fmtTime : GoTime → List Nat → List Nat)
    (enc : LtsvEncoder) (sink : Sink) (msg : List Nat) (lvl : Int) (t : GoTime) :
    (writeEntry fmtTime enc sink msg lvl t).encAfter = enc := by
  cases sink with
  | nil => rfl
  | writer w =>
    have h1 := composeEntry_receiver fmtTime enc msg lvl t
    simp only [writeEntry]
    split <;> (try split) <;> simp [h1]

/-- C7: with a non-nil sink the composed bytes go to the sink in a single
write call, the temporary accumulator is returned to the pool on every
exit path after the write, and the returned error is the sink's error if
it reported one, a distinct incomplete-write error if it accepted fewer
bytes than the line length with no error, and success otherwise. -/
theorem claim_C7_sink_write_contract (fmtTime : GoTime → List Nat → List Nat)
    (enc : LtsvEncoder) (msg : List Nat) (lvl : Int) (t : GoTime)
    (w : List Nat → Nat × Option Nat) :
    (writeEntry fmtTime enc (Sink.writer w) msg lvl t).finalFreed = true ∧
    (writeEntry fmtTime enc (Sink.writer w) msg lvl t).writes.length = 1 ∧
    (∀ line n e, (writeEntry fmtTime enc (Sink.writer w) msg lvl t).writes = [line] →
      w line = (n, some e) →
      (writeEntry fmtTime enc (Sink.writer w) msg lvl t).err =
        some (WriteError.sinkError e)) ∧
    (∀ line n, (writeEntry fmtTime enc (Sink.writer w) msg lvl t).writes = [line] →
      w line = (n, none) → n ≠ line.length →
      (writeEntry fmtTime enc (Sink.writer w) msg lvl t).err =
        some (WriteError.incompleteWrite n line.length)) ∧
    (∀ line n, (writeEntry fmtTime enc (Sink.writer w) msg lvl t).writes = [line] →
      w line = (n, none) → n = line.length →
      (writeEntry fmtTime enc (Sink.writer w) msg lvl t).err = none) := by
  rcases hw : w ((composeEntry fmtTime enc msg lvl t).2.bytes) with ⟨n0, e0⟩
  have hwr : (writeEntry fmtTime enc (Sink.writer w) msg lvl t).writes =
      [(composeEntry fmtTime enc msg lvl t).2.bytes] := by
    simp only [writeEntry]
    split <;> (try split) <;> rfl
  cases e0 with
  | none =>
    by_cases hn : n0 = (composeEntry fmtTime enc msg lvl t).2.bytes.length
    · have hr : (writeEntry fmtTime enc (Sink.writer w) msg lvl t).err = none := by
        simp only [writeEntry, hw]
        simp [hn]
      refine ⟨by simp only [writeEntry]; split <;> (try split) <;> rfl,
        by rw [hwr]; rfl, ?_, ?_, ?_⟩
      · intro line n e h1 h2
        rw [hwr] at h1
        have hl : (composeEntry fmtTime enc msg lvl t).2.bytes = line := by simpa using h1
        rw [← hl, hw] at h2
        simp at h2
      · intro line n h1 h2 h3
        rw [hwr] at h1
        have hl : (composeEntry fmtTime enc msg lvl t).2.bytes = line := by simpa using h1
        rw [← hl, hw] at h2
        have : n0 = n := by simpa using h2
        rw [← hl] at h3
        omega
      · intro line n h1 h2 h3
        exact hr
    · have hr : (writeEntry fmtTime enc (Sink.writer w) msg lvl t).err =
          some (WriteError.incompleteWrite n0 (composeEntry fmtTime enc msg lvl t).2.bytes.length) := by
        simp only [writeEntry, hw]
        simp [hn]
      refine ⟨by simp only [writeEntry]; split <;> (try split) <;> rfl,
        by rw [hwr]; rfl, ?_, ?_, ?_⟩
      · intro line n e h1 h2
        rw [hwr] at h1
        have hl : (composeEntry fmtTime enc msg lvl t).2.bytes = line := by simpa using h1
        rw [← hl, hw] at h2
        simp at h2
      · intro line n h1 h2 h3
        rw [hwr] at h1
        have hl : (composeEntry fmtTime enc msg lvl t).2.bytes = line := by simpa using h1
        rw [← hl, hw] at h2
        have hn0 : n0 = n := by simpa using h2
        rw [hr, ← hl, ← hn0]
      · intro line n h1 h2 h3
        rw [hwr] at h1
        have hl : (composeEntry fmtTime enc msg lvl t).2.bytes = line := by simpa using h1
        rw [← hl, hw] at h2
        have hn0 : n0 = n := by simpa using h2
        rw [← hl] at h3
        omega
  | some e1 =>
    have hr : (writeEntry fmtTime enc (Sink.writer w) msg lvl t).err =
        some (WriteError.sinkError e1) := by
      simp only [writeEntry, hw]
    refine ⟨by simp only [writeEntry]; split <;> (try split) <;> rfl,
      by rw [hwr]; rfl, ?_, ?_, ?_⟩
    · intro line n e h1 h2
      rw [hwr] at h1
      have hl : (composeEntry fmtTime enc msg lvl t).2.bytes = line := by simpa using h1
      rw [← hl, hw] at h2
      have he : e1 = e := (by simpa using h2 : n0 = n ∧ e1 = e).2
      rw [hr, he]
    · intro line n h1 h2 h3
      rw [hwr] at h1
      have hl : (composeEntry fmtTime enc msg lvl t).2.bytes = line := by simpa using h1
      rw [← hl, hw] at h2
      simp at h2
    · intro line n h1 h2 h3
      rw [hwr] at h1
      have hl : (composeEntry fmtTime enc msg lvl t).2.bytes = line := by simpa using h1
      rw [← hl, hw] at h2
      simp at h2

/-! ## Brace bookkeeping for the nested-object claim -/

theorem mem_ltsvReplace (x : Nat) (s : List Nat) (hx : x ∈ ltsvReplace s) :
    x ∈ s ∨ x = 92 ∨ x = 116 ∨ x = 110 ∨ x = 114 := by
  rw [ltsvReplace_eq_flatMap] at hx
  rw [List.mem_flatMap] at hx
  obtain ⟨y, hy, hxy⟩ := hx
  unfold escSimpleByte at hxy
  split_ifs at hxy <;> fin_cases hxy <;> simp_all

theorem hexDigitByte_lt (m : Nat) (hm : m < 16) : hexDigitByte m < 123 := by
  unfold hexDigitByte
  split <;> omega

theorem high_byte_not_mem_jsonEscape (x : Nat) (hx1 : 122 < x) (hx2 : x < 128)
    (s : List Nat) : x ∉ s → x ∉ jsonEscape s := by
  induction s using jsonEscape.induct with
  | case1 =>
    intro h
    rw [jsonEscape]
    simp
  | case2 b rest hb ih =>
    intro h
    have hxb : x ≠ b := fun he => h (by simp [he])
    have ihx : x ∉ jsonEscape rest := ih (fun hr => h (by simp [hr]))
    rw [jsonEscape_cons_ascii b rest hb, List.mem_append]
    rintro (hmem | hmem)
    · split_ifs at hmem <;>
        fin_cases hmem <;>
        first
        | omega
        | exact hxb rfl
        | (have hb16 := hexDigitByte_lt (b / 16) (by omega); omega)
        | (have hb16 := hexDigitByte_lt (b % 16) (by omega); omega)
    · exact ihx hmem
  | case3 b rest h1 h2 ih =>
    intro h
    have ihx : x ∉ jsonEscape rest := ih (fun hr => h (by simp [hr]))
    rw [jsonEscape_cons_invalid b rest h1 h2, List.mem_append]
    rintro (hmem | hmem)
    · fin_cases hmem <;> omega
    · exact ihx hmem
  | case4 b rest h1 chunk r h2 ih =>
    intro h
    obtain ⟨heq, -, hbmem⟩ := utf8DecodeNext_spec b rest chunk r h2
    have hxr : x ∉ r := fun hr => h (by rw [heq, List.mem_append]; exact Or.inr hr)
    have ihx : x ∉ jsonEscape r := ih hxr
    have hxc : x ∉ chunk := fun hc => by
      have := (hbmem x hc).1
      omega
    rw [jsonEscape_cons_valid b rest chunk r h1 h2, List.mem_append]
    rintro (hmem | hmem)
    · exact hxc hmem
    · exact ihx hmem

theorem high_byte_not_mem_ltsvReplace (x : Nat) (hx1 : 122 < x) (s : List Nat)
    (h : x ∉ s) : x ∉ ltsvReplace s := by
  intro hmem
  rcases mem_ltsvReplace x s hmem with hm | hm | hm | hm | hm
  · exact h hm
  all_goals omega

theorem addKey_nestedLevel (e : LtsvEncoder) (key : List Nat) :
    (addKey e key).nestedLevel = e.nestedLevel := by
  unfold addKey safeAddString safeAddJSONString
  split_ifs <;> rfl

theorem addKey_count_brace (e : LtsvEncoder) (key : List Nat) (x : Nat)
    (hx1 : 122 < x) (hx2 : x < 128) (henc : e.replacer = ltsvReplace)
    (hk : x ∉ key) :
    ((addKey e key).bytes).count x = e.bytes.count x := by
  have h1 : x ∉ ltsvReplace key := high_byte_not_mem_ltsvReplace x hx1 key hk
  have h2 : x ∉ jsonEscape key := high_byte_not_mem_jsonEscape x hx1 hx2 key hk
  have hx9 : x ≠ 9 := by omega
  have hx44 : x ≠ 44 := by omega
  have hx34 : x ≠ 34 := by omega
  have hx58 : x ≠ 58 := by omega
  unfold addKey safeAddString safeAddJSONString
  split_ifs <;>
    simp [List.count_append, henc, List.count_eq_zero_of_not_mem h1,
      List.count_eq_zero_of_not_mem h2, List.count_cons, hx9, hx44, hx34, hx58,
      Ne.symm hx9, Ne.symm hx44, Ne.symm hx34, Ne.symm hx58]

/-- C4: AddMarshaler appends the key, increments nesting depth, appends an
opening brace, runs the callback against the same accumulator, appends the
closing brace even when the callback errors, decrements nesting depth, and
returns exactly the callback's error; for a callback that appends
brace-balanced bytes and preserves the nesting depth, the buffer's brace
balance is preserved (keys free of brace bytes, default escaper). -/
theorem claim_C4_nested_object (enc : LtsvEncoder) (key inner : List Nat)
    (err : Option Nat) (f : LtsvEncoder → LtsvEncoder × Option Nat)
    (henc : enc.replacer = ltsvReplace)
    (hk1 : 123 ∉ key) (hk2 : 125 ∉ key)
    (hf1 : (f (marshalStage enc key)).1.bytes = (marshalStage enc key).bytes ++ inner)
    (hf2 : (f (marshalStage enc key)).2 = err)
    (hf3 : (f (marshalStage enc key)).1.nestedLevel = (marshalStage enc key).nestedLevel)
    (hbal : inner.count 123 = inner.count 125) :
    (addMarshaler enc key f).2 = err ∧
    (addMarshaler enc key f).1.bytes =
      (addKey enc key).bytes ++ 123 :: (inner ++ [125]) ∧
    (addMarshaler enc key f).1.nestedLevel = enc.nestedLevel ∧
    (enc.bytes.count 123 = enc.bytes.count 125 →
      (addMarshaler enc key f).1.bytes.count 123 =
        (addMarshaler enc key f).1.bytes.count 125) := by
  have hstage : (marshalStage enc key).bytes = (addKey enc key).bytes ++ [123] := rfl
  have hbytes : (addMarshaler enc key f).1.bytes =
      (addKey enc key).bytes ++ 123 :: (inner ++ [125]) := by
    show ((f (marshalStage enc key)).1.bytes ++ [125]) = _
    rw [hf1, hstage]
    simp
  refine ⟨hf2, hbytes, ?_, ?_⟩
  · show (f (marshalStage enc key)).1.nestedLevel - 1 = enc.nestedLevel
    rw [hf3]
    show (addKey enc key).nestedLevel + 1 - 1 = enc.nestedLevel
    rw [addKey_nestedLevel]
    omega
  · intro hball
    rw [hbytes]
    have hc123 := addKey_count_brace enc key 123 (by omega) (by omega) henc hk1
    have hc125 := addKey_count_brace enc key 125 (by omega) (by omega) henc hk2
    simp [List.count_append, List.count_cons, hc123, hc125, hball, hbal]

/-- Witness for C4: the error-returning callback of the repository's own
test (loggable{false}) on a default encoder with key "k": the error comes
back as is, the buffer reads k:{} and its braces are balanced. -/
theorem claim_C4_nested_object_witness :
    (addMarshaler poolNew [107] (fun e => (e, some 7))).2 = some 7 ∧
    (addMarshaler poolNew [107] (fun e => (e, some 7))).1.bytes = [107, 58, 123, 125] ∧
    (addMarshaler poolNew [107] (fun e => (e, some 7))).1.nestedLevel = 0 ∧
    (addMarshaler poolNew [107] (fun e => (e, some 7))).1.bytes.count 123 =
      (addMarshaler poolNew [107] (fun e => (e, some 7))).1.bytes.count 125 := by
  obtain ⟨h1, h2, h3, h4⟩ := claim_C4_nested_object poolNew [107] [] (some 7)
    (fun e => (e, some 7)) rfl (by decide) (by decide) (by simp) rfl rfl rfl
  have hak : (addKey poolNew [107]).bytes = [107, 58] := by
    simp [addKey, safeAddString, poolNew, ltsvReplace_eq_flatMap, escSimpleByte]
  refine ⟨h1, ?_, h3, h4 rfl⟩
  rw [h2, hak]
  rfl

/-! ## Claim C5: empty built-in labels -/

/-- An encoder configured as the claim's example: time suppressed (the
pool zero value has an empty layout), level and message labels set to the
empty string, and one accumulated field user:alice. -/
def encC5 : LtsvEncoder :=
  addString { poolNew with levelLabel := [], messageLabel := [] }
    [117, 115, 101, 114] [97, 108, 105, 99, 101]

/-- C5 evaluation at the claim's own example: with time suppressed and the
level and message labels set to the empty string, WriteEntry still emits
the level and message fields with an empty label — the line is
":I(tab):(tab)user:alice(newline)", not the "user:alice(newline)" the
claim requires.  Empty built-in label names are never checked by addKey,
addLevel or addMessage; only an empty time layout suppresses a field. -/
theorem claim_C5_empty_label_not_omitted :
    (writeEntry (fun _ _ => []) encC5 (Sink.writer (fun _ => (16, none))) []
        infoLevel ⟨0⟩).writes =
      [[58, 73, 9, 58, 9, 117, 115, 101, 114, 58, 97, 108, 105, 99, 101, 10]] ∧
    ([[58, 73, 9, 58, 9, 117, 115, 101, 114, 58, 97, 108, 105, 99, 101, 10]] :
        List (List Nat)) ≠
      [[117, 115, 101, 114, 58, 97, 108, 105, 99, 101, 10]] := by
  constructor
  · have hw : (writeEntry (fun _ _ => []) encC5 (Sink.writer (fun _ => (16, none))) []
        infoLevel ⟨0⟩).writes =
        [(composeEntry (fun _ _ => []) encC5 [] infoLevel ⟨0⟩).2.bytes] := by
      simp only [writeEntry]
      split <;> rfl
    rw [hw]
    have henc : encC5.bytes = [117, 115, 101, 114, 58, 97, 108, 105, 99, 101] := by
      simp [encC5, addString, addKey, safeAddString, poolNew,
        ltsvReplace_eq_flatMap, escSimpleByte]
    simp [composeEntry, addTime, addLevel, addMessage, addKey, safeAddString,
      poolNew, encC5, addString, henc, levelBytes, infoLevel, debugLevel,
      warnLevel, errorLevel, panicLevel, fatalLevel, ltsvReplace_eq_flatMap,
      escSimpleByte]
  · decide

/-! ## The stack flattener (ltsv_stack.go 30-79) -/

/-- bytes.IndexByte for the newline byte, split form: the bytes before the
first newline and the bytes after it, or none when there is no newline. -/
def findNl (l : List Nat) : Option (List Nat × List Nat) :=
  match l with
  | [] => none
  | b :: t =>
    if b = 10 then some ([], t)
    else (findNl t).map (fun p => (b :: p.1, p.2))

theorem findNl_some (l : List Nat) (a r : List Nat) (h : findNl l = some (a, r)) :
    l = a ++ 10 :: r := by
  induction l generalizing a r with
  | nil => simp [findNl] at h
  | cons b t ih =>
    simp only [findNl] at h
    by_cases hb : b = 10
    · rw [if_pos hb] at h
      obtain ⟨h1, h2⟩ : [] = a ∧ t = r := by simpa using h
      subst hb
      rw [← h1, ← h2]
      rfl
    · rw [if_neg hb] at h
      cases hf : findNl t with
      | none => rw [hf] at h; simp at h
      | some p =>
        rw [hf] at h
        obtain ⟨h1, h2⟩ : b :: p.1 = a ∧ p.2 = r := by simpa using h
        have := ih p.1 p.2 (by rw [hf])
        rw [← h1, ← h2, this]
        rfl

theorem findNl_of_line (a : List Nat) (ha : 10 ∉ a) (r : List Nat) :
    findNl (a ++ 10 :: r) = some (a, r) := by
  induction a with
  | nil => simp [findNl]
  | cons b t ih =>
    have hb : b ≠ 10 := fun hb => ha (by simp [hb])
    have iht := ih (fun hm => ha (by simp [hm]))
    simp only [List.cons_append, findNl, List.append_eq]
    rw [if_neg hb, iht]
    rfl

theorem findNl_of_no_nl (a : List Nat) (ha : 10 ∉ a) : findNl a = none := by
  induction a with
  | nil => rfl
  | cons b t ih =>
    have hb : b ≠ 10 := fun hb => ha (by simp [hb])
    have iht := ih (fun hm => ha (by simp [hm]))
    simp only [findNl]
    rw [if_neg hb, iht]
    rfl

/-- The skip loop (ltsv_stack.go 39-45): drop the given number of
newline-terminated lines; on a missing newline, fail with the buffer as it
stood at the failure. -/
def skipLoop : Nat → List Nat → Except (List Nat) (List Nat)
  | 0, buf => Except.ok buf
  | n + 1, buf =>
    match findNl buf with
    | none => Except.error buf
    | some p => skipLoop n p.2

/-- A snapshot of the flattener's working storage (ltsv_stack.go 31-37):
the backing array holding the dump's bytes (buf := []byte(s)), the output
written so far (p := buf[:0], which shares that array and writes from its
base), the read offset of the unread remainder (each buf = buf[i+k:]
re-slices the same array further along), and whether the output still
lives inside the backing array (an append past the array's capacity moves
the output to fresh storage and the sharing ends). -/
structure FlatState where
  arr : List Nat
  p : List Nat
  roff : Nat
  aliased : Bool

/-- Writing a chunk into the backing array at a position: the bytes from
the position on are replaced by the chunk, the rest is kept. -/
def arrOverwrite (arr : List Nat) (pos : Nat) (chunk : List Nat) : List Nat :=
  arr.take pos ++ chunk ++ arr.drop (pos + chunk.length)

/-- p = append(p, chunk...) on the shared array: while the output shares
the backing array and the write fits in the array, the chunk lands in the
array at the output's current length — possibly over input not yet read;
otherwise Go moves the output to fresh storage and the array is never
written again. The chunk's value is read out before the write, as append
copies the way memmove does. -/
def pushBytes (st : FlatState) (chunk : List Nat) : FlatState :=
  if st.aliased = true ∧ st.p.length + chunk.length ≤ st.arr.length then
    { st with p := st.p ++ chunk, arr := arrOverwrite st.arr st.p.length chunk }
  else
    { st with p := st.p ++ chunk, aliased := false }

theorem pushBytes_roff (st : FlatState) (chunk : List Nat) :
    (pushBytes st chunk).roff = st.roff := by
  unfold pushBytes
  split <;> rfl

theorem pushBytes_p (st : FlatState) (chunk : List Nat) :
    (pushBytes st chunk).p = st.p ++ chunk := by
  unfold pushBytes
  split <;> rfl

theorem pushBytes_arr_length (st : FlatState) (chunk : List Nat) :
    (pushBytes st chunk).arr.length = st.arr.length := by
  unfold pushBytes
  split
  · rename_i hc
    show (arrOverwrite st.arr st.p.length chunk).length = st.arr.length
    simp only [arrOverwrite, List.length_append, List.length_take, List.length_drop]
    omega
  · rfl

theorem arrOverwrite_drop (arr chunk : List Nat) (pos X : Nat)
    (hpos : pos + chunk.length ≤ arr.length) (hX : pos + chunk.length ≤ X) :
    (arrOverwrite arr pos chunk).drop X = arr.drop X := by
  have htk : (arr.take pos).length = pos := by
    rw [List.length_take]
    exact Nat.min_eq_left (by omega)
  have h1 : (arr.take pos).drop X = [] :=
    List.drop_eq_nil_of_le (by rw [htk]; omega)
  have h2 : chunk.drop (X - (arr.take pos).length) = [] :=
    List.drop_eq_nil_of_le (by rw [htk]; omega)
  unfold arrOverwrite
  rw [List.drop_append_eq_append_drop, List.drop_append_eq_append_drop, h1, h2,
    List.nil_append, List.nil_append, List.drop_drop]
  congr 1
  simp only [List.length_append, htk]
  omega

/-- A write whose end stays at or before a read offset leaves the bytes
from that offset on unchanged — whether it lands in the shared array or
the output has already moved to fresh storage. -/
theorem pushBytes_arr_drop (st : FlatState) (chunk : List Nat) (X : Nat)
    (h : st.p.length + chunk.length ≤ X) :
    (pushBytes st chunk).arr.drop X = st.arr.drop X := by
  unfold pushBytes
  split
  · rename_i hc
    exact arrOverwrite_drop st.arr chunk st.p.length X hc.2 h
  · rfl

/-- One iteration of the frame loop of formatStacktraceInOneLine
(ltsv_stack.go 47-71) over the shared storage: a bracket is written, then
the description line is read from the array as the writes have left it
and copied, a space, the location line (the byte after the description's
newline having been dropped) and a closing bracket follow, and a comma
when unread input remains; the left value is the returned output when a
needed newline (or the byte after the description line) is missing — the
remaining bytes as they then stand, and the literal ellipsis. -/
def frameStep (st : FlatState) : Sum (List Nat) FlatState :=
  let st1 := pushBytes st [91]
  match findNl (st1.arr.drop st1.roff) with
  | none => Sum.inl (pushBytes (pushBytes st1 (st1.arr.drop st1.roff)) [46, 46, 46]).p
  | some (desc, _) =>
    let st3 := pushBytes (pushBytes st1 desc) [32]
    if st3.arr.length < st3.roff + desc.length + 2 then
      Sum.inl (pushBytes (pushBytes st3 (st3.arr.drop st3.roff)) [46, 46, 46]).p
    else
      let st4 : FlatState := { st3 with roff := st3.roff + desc.length + 2 }
      match findNl (st4.arr.drop st4.roff) with
      | none => Sum.inl (pushBytes (pushBytes st4 (st4.arr.drop st4.roff)) [46, 46, 46]).p
      | some (loc, _) =>
        let st6 := pushBytes (pushBytes st4 loc) [93]
        let st7 : FlatState := { st6 with roff := st6.roff + loc.length + 1 }
        Sum.inr (if st7.arr.length ≤ st7.roff then st7 else pushBytes st7 [44])

/-- A frame iteration that continues advances the read offset and keeps
the backing array's length. -/
theorem frameStep_measure (st st2 : FlatState) (h : frameStep st = Sum.inr st2) :
    st.roff < st2.roff ∧ st2.arr.length = st.arr.length := by
  simp only [frameStep] at h
  split at h
  · exact Sum.noConfusion h
  · split at h
    · exact Sum.noConfusion h
    · split at h
      · exact Sum.noConfusion h
      · rw [Sum.inr.injEq] at h
        subst h
        constructor
        · split <;> simp only [pushBytes_roff, pushBytes_arr_length] <;> omega
        · split <;> simp only [pushBytes_roff, pushBytes_arr_length]

/-- The frame loop of formatStacktraceInOneLine (ltsv_stack.go 47-72):
while unread input remains, run one frame iteration over the shared
storage; a left value is a truncation return, a right value the state at
the next frame. -/
def flatLoop (st : FlatState) : List Nat :=
  if st.arr.length ≤ st.roff then st.p
  else
    match h : frameStep st with
    | Sum.inl out => out
    | Sum.inr st2 => flatLoop st2
termination_by st.arr.length - st.roff
decreasing_by
  obtain ⟨h1, h2⟩ := frameStep_measure st st2 h
  omega

theorem flatLoop_done (st : FlatState) (h : st.arr.length ≤ st.roff) :
    flatLoop st = st.p := by
  rw [flatLoop, if_pos h]

theorem flatLoop_step (st st2 : FlatState) (hgt : ¬ st.arr.length ≤ st.roff)
    (h : frameStep st = Sum.inr st2) : flatLoop st = flatLoop st2 := by
  rw [flatLoop, if_neg hgt]
  split
  · rename_i out heq
    rw [h] at heq
    exact Sum.noConfusion heq
  · rename_i st2x heq
    rw [h] at heq
    obtain rfl : st2 = st2x := by simpa using heq
    rfl

/-- formatStacktraceInOneLine (ltsv_stack.go 30-79): the dump's bytes
become the backing array and the output starts as its empty base slice
(p := buf[:0]); 1 + 2*skip lines are skipped (the discard header first)
and the frames are flattened in place; on a truncated input the remaining
bytes and "..." are returned. -/
def formatStacktraceInOneLine (skip : Nat) (s : List Nat) : List Nat :=
  match skipLoop (1 + 2 * skip) s with
  | Except.error rem => rem ++ [46, 46, 46]
  | Except.ok buf =>
    flatLoop { arr := s, p := [], roff := s.length - buf.length, aliased := true }

theorem formatStacktrace_ok (skip : Nat) (s buf : List Nat)
    (h : skipLoop (1 + 2 * skip) s = Except.ok buf) :
    formatStacktraceInOneLine skip s =
      flatLoop (FlatState.mk s [] (s.length - buf.length) true) := by
  unfold formatStacktraceInOneLine
  rw [h]

/-! ## Wire format of a stack dump, and the flattener's behavior on it -/

/-- Newline-terminated lines. -/
def wireLines : List (List Nat) → List Nat
  | [] => []
  | a :: t => a ++ 10 :: wireLines t

/-- Newline-terminated frame pairs: the description line, then the
location line with one leading indentation byte (a tab in real Go
traces). -/
def wireFrames : List (List Nat × Nat × List Nat) → List Nat
  | [] => []
  | (d, c, l) :: t => d ++ 10 :: c :: (l ++ 10 :: wireFrames t)

/-- One flattened frame: an opening bracket, the description, a space, the
location, a closing bracket. -/
def frameText (fr : List Nat × Nat × List Nat) : List Nat :=
  91 :: fr.1 ++ 32 :: fr.2.2 ++ [93]

/-- Flattened frames joined with commas. -/
def joinFrames : List (List Nat × Nat × List Nat) → List Nat
  | [] => []
  | [fr] => frameText fr
  | fr :: t => frameText fr ++ 44 :: joinFrames t

theorem wireFrames_ne_nil (fr : List Nat × Nat × List Nat)
    (t : List (List Nat × Nat × List Nat)) : wireFrames (fr :: t) ≠ [] := by
  obtain ⟨d, c, l⟩ := fr
  simp [wireFrames]

theorem joinFrames_cons (fr : List Nat × Nat × List Nat)
    (t : List (List Nat × Nat × List Nat)) (h : t ≠ []) :
    joinFrames (fr :: t) = frameText fr ++ 44 :: joinFrames t := by
  cases t with
  | nil => exact absurd rfl h
  | cons f2 t2 => rfl

/-- On a well-formed remainder — a description line, the dropped
indentation byte, a location line, then the rest — a frame iteration
whose output has stayed short of the unread input (p.length + 1 ≤ roff)
reads the original bytes, emits the bracketed frame (with a comma when
input remains) and leaves the remainder intact. -/
theorem frameStep_wire (st : FlatState) (d : List Nat) (c : Nat) (l rest : List Nat)
    (hd : 10 ∉ d) (hl : 10 ∉ l)
    (hwire : st.arr.drop st.roff = d ++ 10 :: c :: (l ++ 10 :: rest))
    (hinv : st.p.length + 1 ≤ st.roff)
    (st2 : FlatState) (heq : frameStep st = Sum.inr st2) :
    st2.p = (st.p ++ (91 :: d ++ 32 :: l ++ [93])) ++ (if rest = [] then [] else [44]) ∧
      st2.roff = st.roff + d.length + 2 + l.length + 1 ∧
      st2.arr.length = st.arr.length ∧
      st2.arr.drop st2.roff = rest := by
  have hW : st.arr.length = st.roff + (d.length + l.length + 3 + rest.length) := by
    have hlen := congrArg List.length hwire
    simp only [List.length_drop, List.length_append, List.length_cons] at hlen
    omega
  have hmid : st.arr.drop (st.roff + d.length + 2) = l ++ 10 :: rest := by
    rw [show st.roff + d.length + 2 = st.roff + (d.length + 2) from by omega,
      ← List.drop_drop, hwire, List.drop_append_eq_append_drop]
    rw [List.drop_eq_nil_of_le (by omega : d.length ≤ d.length + 2), List.nil_append,
      show d.length + 2 - d.length = 2 from by omega]
    rfl
  have hend : st.arr.drop (st.roff + d.length + 2 + l.length + 1) = rest := by
    rw [show st.roff + d.length + 2 + l.length + 1
          = st.roff + d.length + 2 + (l.length + 1) from by omega,
      ← List.drop_drop, hmid, List.drop_append_eq_append_drop]
    rw [List.drop_eq_nil_of_le (by omega : l.length ≤ l.length + 1), List.nil_append,
      show l.length + 1 - l.length = 1 from by omega]
    rfl
  simp only [frameStep] at heq
  split at heq
  · exact Sum.noConfusion heq
  · rename_i desc x ha
    split at heq
    · exact Sum.noConfusion heq
    · split at heq
      · exact Sum.noConfusion heq
      · rename_i loc y hb
        rw [pushBytes_roff,
          pushBytes_arr_drop st [91] st.roff
            (by simp only [List.length_cons, List.length_nil]; omega),
          hwire, findNl_of_line d hd] at ha
        obtain ⟨h1, h2⟩ : d = desc ∧ c :: (l ++ 10 :: rest) = x := by simpa using ha
        subst h1
        subst h2
        simp only [pushBytes_roff] at hb
        rw [pushBytes_arr_drop _ _ _ (by
            simp only [pushBytes_p, List.length_append, List.length_cons, List.length_nil]
            omega),
          pushBytes_arr_drop _ _ _ (by
            simp only [pushBytes_p, List.length_append, List.length_cons, List.length_nil]
            omega),
          pushBytes_arr_drop _ _ _ (by
            simp only [List.length_cons, List.length_nil]
            omega),
          hmid, findNl_of_line l hl rest] at hb
        obtain ⟨h3, h4⟩ : l = loc ∧ rest = y := by simpa using hb
        subst h3
        subst h4
        rw [Sum.inr.injEq] at heq
        subst heq
        refine ⟨?_, ?_, ?_, ?_⟩
        · by_cases hrest : rest = []
          · rw [if_pos (by
                simp only [pushBytes_arr_length, pushBytes_roff]
                subst hrest
                simp only [List.length_nil] at hW
                omega), if_pos hrest]
            simp only [pushBytes_p, List.append_nil]
            simp [List.append_assoc]
          · rw [if_neg (by
                simp only [pushBytes_arr_length, pushBytes_roff]
                have h0 : rest.length ≠ 0 := fun h0 => hrest (List.length_eq_zero.mp h0)
                omega), if_neg hrest]
            simp only [pushBytes_p]
            simp [List.append_assoc]
        · split <;> simp only [pushBytes_roff] <;> omega
        · split <;> simp only [pushBytes_arr_length]
        · split
          · simp only [pushBytes_roff]
            rw [pushBytes_arr_drop _ _ _ (by
                simp only [pushBytes_p, List.length_append, List.length_cons,
                  List.length_nil]
                omega),
              pushBytes_arr_drop _ _ _ (by
                simp only [pushBytes_p, List.length_append, List.length_cons,
                  List.length_nil]
                omega),
              pushBytes_arr_drop _ _ _ (by
                simp only [pushBytes_p, List.length_append, List.length_cons,
                  List.length_nil]
                omega),
              pushBytes_arr_drop _ _ _ (by
                simp only [pushBytes_p, List.length_append, List.length_cons,
                  List.length_nil]
                omega),
              pushBytes_arr_drop _ _ _ (by
                simp only [List.length_cons, List.length_nil]
                omega)]
            exact hend
          · simp only [pushBytes_roff]
            rw [pushBytes_arr_drop _ _ _ (by
                simp only [pushBytes_p, List.length_append, List.length_cons,
                  List.length_nil]
                omega),
              pushBytes_arr_drop _ _ _ (by
                simp only [pushBytes_p, List.length_append, List.length_cons,
                  List.length_nil]
                omega),
              pushBytes_arr_drop _ _ _ (by
                simp only [pushBytes_p, List.length_append, List.length_cons,
                  List.length_nil]
                omega),
              pushBytes_arr_drop _ _ _ (by
                simp only [pushBytes_p, List.length_append, List.length_cons,
                  List.length_nil]
                omega),
              pushBytes_arr_drop _ _ _ (by
                simp only [pushBytes_p, List.length_append, List.length_cons,
                  List.length_nil]
                omega),
              pushBytes_arr_drop _ _ _ (by
                simp only [List.length_cons, List.length_nil]
                omega)]
            exact hend

/-- Under the same well-formedness and headroom hypotheses, the frame
iteration does not take a truncation exit. -/
theorem frameStep_wire_ex (st : FlatState) (d : List Nat) (c : Nat) (l rest : List Nat)
    (hd : 10 ∉ d) (hl : 10 ∉ l)
    (hwire : st.arr.drop st.roff = d ++ 10 :: c :: (l ++ 10 :: rest))
    (hinv : st.p.length + 1 ≤ st.roff) :
    ∃ st2, frameStep st = Sum.inr st2 := by
  have hW : st.arr.length = st.roff + (d.length + l.length + 3 + rest.length) := by
    have hlen := congrArg List.length hwire
    simp only [List.length_drop, List.length_append, List.length_cons] at hlen
    omega
  have hmid : st.arr.drop (st.roff + d.length + 2) = l ++ 10 :: rest := by
    rw [show st.roff + d.length + 2 = st.roff + (d.length + 2) from by omega,
      ← List.drop_drop, hwire, List.drop_append_eq_append_drop]
    rw [List.drop_eq_nil_of_le (by omega : d.length ≤ d.length + 2), List.nil_append,
      show d.length + 2 - d.length = 2 from by omega]
    rfl
  rcases hfs : frameStep st with out | st2
  · exfalso
    simp only [frameStep] at hfs
    split at hfs
    · rename_i ha
      rw [pushBytes_roff,
        pushBytes_arr_drop st [91] st.roff
          (by simp only [List.length_cons, List.length_nil]; omega),
        hwire, findNl_of_line d hd] at ha
      exact Option.noConfusion ha
    · rename_i desc x ha
      rw [pushBytes_roff,
        pushBytes_arr_drop st [91] st.roff
          (by simp only [List.length_cons, List.length_nil]; omega),
        hwire, findNl_of_line d hd] at ha
      obtain ⟨h1, h2⟩ : d = desc ∧ c :: (l ++ 10 :: rest) = x := by simpa using ha
      subst h1
      subst h2
      split at hfs
      · rename_i hcond
        simp only [pushBytes_arr_length, pushBytes_roff] at hcond
        omega
      · split at hfs
        · rename_i hb
          simp only [pushBytes_roff] at hb
          rw [pushBytes_arr_drop _ _ _ (by
              simp only [pushBytes_p, List.length_append, List.length_cons,
                List.length_nil]
              omega),
            pushBytes_arr_drop _ _ _ (by
              simp only [pushBytes_p, List.length_append, List.length_cons,
                List.length_nil]
              omega),
            pushBytes_arr_drop _ _ _ (by
              simp only [List.length_cons, List.length_nil]
              omega),
            hmid, findNl_of_line l hl rest] at hb
          exact Option.noConfusion hb
        · exact Sum.noConfusion hfs
  · exact ⟨st2, rfl⟩

/-- On a remainder that is exactly a well-formed frame list, an output
that stays at least the frame count short of the read offset never
overtakes the unread input: the loop emits the comma-joined frames after
the output already written. -/
theorem flatLoop_wire (fs : List (List Nat × Nat × List Nat))
    (hc : ∀ fr ∈ fs, 10 ∉ fr.1 ∧ 10 ∉ fr.2.2) :
    ∀ st : FlatState, st.arr.drop st.roff = wireFrames fs →
      st.p.length + fs.length ≤ st.roff →
      flatLoop st = st.p ++ joinFrames fs := by
  induction fs with
  | nil =>
    intro st hwire hinv
    have hle : st.arr.length ≤ st.roff := by
      have hlen := congrArg List.length hwire
      simp only [List.length_drop, wireFrames, List.length_nil] at hlen
      omega
    rw [flatLoop_done st hle]
    simp [joinFrames]
  | cons fr t ih =>
    intro st hwire hinv
    obtain ⟨d, c, l⟩ := fr
    obtain ⟨hd, hl⟩ := hc (d, c, l) (by simp)
    have hct : ∀ fr ∈ t, 10 ∉ fr.1 ∧ 10 ∉ fr.2.2 := fun fr hf => hc fr (by simp [hf])
    simp only [wireFrames] at hwire
    obtain ⟨st2, hfs⟩ :=
      frameStep_wire_ex st d c l (wireFrames t) hd hl hwire
        (by simp only [List.length_cons] at hinv; omega)
    obtain ⟨hp2, hr2, hL2, hw2⟩ :=
      frameStep_wire st d c l (wireFrames t) hd hl hwire
        (by simp only [List.length_cons] at hinv; omega) st2 hfs
    have hgt : ¬ st.arr.length ≤ st.roff := by
      have hlen := congrArg List.length hwire
      simp only [List.length_drop, List.length_append, List.length_cons] at hlen
      omega
    have hinv2 : st2.p.length + t.length ≤ st2.roff := by
      rw [hr2, hp2]
      simp only [List.length_cons] at hinv
      cases t with
      | nil =>
        rw [show wireFrames ([] : List (List Nat × Nat × List Nat)) = [] from rfl,
          if_pos rfl]
        simp only [List.length_append, List.length_cons, List.length_nil,
          List.append_nil]
        omega
      | cons f2 t2 =>
        rw [if_neg (wireFrames_ne_nil f2 t2)]
        simp only [List.length_cons] at hinv
        simp only [List.length_append, List.length_cons, List.length_nil]
        omega
    rw [flatLoop_step st st2 hgt hfs, ih hct st2 hw2 hinv2, hp2]
    cases t with
    | nil =>
      rw [show wireFrames ([] : List (List Nat × Nat × List Nat)) = [] from rfl,
        if_pos rfl]
      simp [joinFrames, frameText, List.append_assoc]
    | cons f2 t2 =>
      rw [if_neg (wireFrames_ne_nil f2 t2),
        joinFrames_cons (d, c, l) (f2 :: t2) (by simp)]
      simp [frameText, List.append_assoc]

theorem skipLoop_wire (pre : List (List Nat)) (X : List Nat)
    (hp : ∀ l ∈ pre, 10 ∉ l) :
    skipLoop pre.length (wireLines pre ++ X) = Except.ok X := by
  induction pre with
  | nil => simp [wireLines, skipLoop]
  | cons a t ih =>
    have ha : 10 ∉ a := hp a (by simp)
    have hat : ∀ l ∈ t, 10 ∉ l := fun l hl => hp l (by simp [hl])
    show skipLoop (t.length + 1) ((a ++ 10 :: wireLines t) ++ X) = _
    rw [List.append_assoc]
    simp only [skipLoop, List.cons_append]
    rw [findNl_of_line a ha (wireLines t ++ X)]
    exact ih hat

/-- C8 (amended): on a dump made of 1 + 2*skip newline-terminated header
lines followed by frame pairs — a description line, then a location line
whose first byte is indentation — the flattener emits
[description location] per frame, comma-joined, where the location is the
location line with its leading indentation byte removed, provided the
frame count does not exceed the byte length of the skipped header lines:
the output is written into the dump's own storage, and with less headroom
than that the writes overtake the unread input and corrupt later frames.
Whenever an expected newline is missing (here: an unterminated
remainder), the remaining bytes plus a literal ellipsis are returned
without an error. -/
theorem claim_C8_flattener_amended :
    (∀ (skip : Nat) (pre : List (List Nat)) (frames : List (List Nat × Nat × List Nat)),
      pre.length = 1 + 2 * skip →
      (∀ l ∈ pre, 10 ∉ l) →
      (∀ fr ∈ frames, 10 ∉ fr.1 ∧ 10 ∉ fr.2.2) →
      frames.length ≤ (wireLines pre).length →
      formatStacktraceInOneLine skip (wireLines pre ++ wireFrames frames) =
        joinFrames frames) ∧
    (∀ (skip : Nat) (t : List Nat), 10 ∉ t →
      formatStacktraceInOneLine skip t = t ++ [46, 46, 46]) := by
  constructor
  · intro skip pre frames hlen hp hf hroom
    have hok : skipLoop (1 + 2 * skip) (wireLines pre ++ wireFrames frames)
        = Except.ok (wireFrames frames) := by
      rw [← hlen]
      exact skipLoop_wire pre _ hp
    rw [formatStacktrace_ok skip _ _ hok]
    have hro : (wireLines pre ++ wireFrames frames).length - (wireFrames frames).length
        = (wireLines pre).length := by
      simp [List.length_append]
    rw [hro]
    have hmain := flatLoop_wire frames hf
      (FlatState.mk (wireLines pre ++ wireFrames frames) [] (wireLines pre).length true)
      (by simpa using List.drop_left (wireLines pre) (wireFrames frames))
      (by simpa using hroom)
    simpa using hmain
  · intro skip t ht
    unfold formatStacktraceInOneLine
    rw [show skipLoop (1 + 2 * skip) t = Except.error t from by
      rw [show 1 + 2 * skip = 2 * skip + 1 from by omega]
      simp only [skipLoop]
      rw [findNl_of_no_nl t ht]]

/-- Counterexample to C8 as stated, in two parts. First: on the dump with
header line "h", description line "A" and location line "BC", the
flattener returns "[A C]" — the location line's first byte is dropped —
not the "[A BC]" the claim's frame-pair reading predicts. Second: on the
dump with an empty header line and the two tab-indented frames A/B and
C/D, the output — written into the dump's own storage — overtakes the
unread input (one skipped header byte against two frames), so the
flattener returns "[A B],[[ D]", not the "[A B],[C D]" the claim asserts
for every remaining frame pair. -/
theorem claim_C8_counterexample :
    (formatStacktraceInOneLine 0 [104, 10, 65, 10, 66, 67, 10] = [91, 65, 32, 67, 93] ∧
      ([91, 65, 32, 67, 93] : List Nat) ≠ [91, 65, 32, 66, 67, 93]) ∧
    (formatStacktraceInOneLine 0 [10, 65, 10, 9, 66, 10, 67, 10, 9, 68, 10] =
        [91, 65, 32, 66, 93, 44, 91, 91, 32, 68, 93] ∧
      ([91, 65, 32, 66, 93, 44, 91, 91, 32, 68, 93] : List Nat) ≠
        [91, 65, 32, 66, 93, 44, 91, 67, 32, 68, 93]) := by
  refine ⟨⟨?_, by decide⟩, ⟨?_, by decide⟩⟩
  · rw [show formatStacktraceInOneLine 0 [104, 10, 65, 10, 66, 67, 10] =
        flatLoop (FlatState.mk [104, 10, 65, 10, 66, 67, 10] [] 2 true) from rfl,
      flatLoop_step (FlatState.mk [104, 10, 65, 10, 66, 67, 10] [] 2 true)
        (FlatState.mk [91, 65, 32, 67, 93, 67, 10] [91, 65, 32, 67, 93] 7 true)
        (by decide) (by rfl),
      flatLoop_done _ (by decide)]
  · rw [show formatStacktraceInOneLine 0 [10, 65, 10, 9, 66, 10, 67, 10, 9, 68, 10] =
        flatLoop (FlatState.mk [10, 65, 10, 9, 66, 10, 67, 10, 9, 68, 10] [] 1 true)
        from rfl,
      flatLoop_step (FlatState.mk [10, 65, 10, 9, 66, 10, 67, 10, 9, 68, 10] [] 1 true)
        (FlatState.mk [91, 65, 32, 66, 93, 44, 67, 10, 9, 68, 10]
          [91, 65, 32, 66, 93, 44] 6 true)
        (by decide) (by rfl),
      flatLoop_step (FlatState.mk [91, 65, 32, 66, 93, 44, 67, 10, 9, 68, 10]
          [91, 65, 32, 66, 93, 44] 6 true)
        (FlatState.mk [91, 65, 32, 66, 93, 44, 91, 91, 32, 68, 93]
          [91, 65, 32, 66, 93, 44, 91, 91, 32, 68, 93] 11 true)
        (by decide) (by rfl),
      flatLoop_done _ (by decide)]

/-- Witness for the amended C8 at the claim's own example shape: a header
plus two frames d1/(tab)l1 and d2/(tab)l2, skip = 0 — the two-byte header
line gives the two frames enough headroom — giving "[d1 l1],[d2 l2]". -/
theorem claim_C8_flattener_witness :
    formatStacktraceInOneLine 0
        (wireLines [[104]] ++
          wireFrames [([100, 49], 9, [108, 49]), ([100, 50], 9, [108, 50])]) =
      [91, 100, 49, 32, 108, 49, 93, 44, 91, 100, 50, 32, 108, 50, 93] := by
  have h := claim_C8_flattener_amended.1 0 [[104]]
    [([100, 49], 9, [108, 49]), ([100, 50], 9, [108, 50])] (by decide) (by decide)
    (by decide) (by decide)
  rw [h]
  rfl

/-- Witness for C7: a default encoder with time suppressed, an empty
message at level Info, and a sink that accepts zero bytes with no error:
the incomplete-write error comes back for the 13-byte line
"level:I(tab)msg:(newline)", and the temporary accumulator is freed. -/
theorem claim_C7_sink_write_contract_witness :
    (writeEntry (fun _ _ => []) poolNew (Sink.writer (fun _ => (0, none))) []
        infoLevel ⟨0⟩).err = some (WriteError.incompleteWrite 0 13) ∧
    (writeEntry (fun _ _ => []) poolNew (Sink.writer (fun _ => (0, none))) []
        infoLevel ⟨0⟩).finalFreed = true := by
  obtain ⟨hf, hlen, hse, hinc, hok⟩ := claim_C7_sink_write_contract (fun _ _ => [])
    poolNew [] infoLevel ⟨0⟩ (fun _ => (0, none))
  have hw1 : (writeEntry (fun _ _ => []) poolNew (Sink.writer (fun _ => (0, none))) []
      infoLevel ⟨0⟩).writes =
      [(composeEntry (fun _ _ => []) poolNew [] infoLevel ⟨0⟩).2.bytes] := by
    simp only [writeEntry]
    split <;> rfl
  have hw2 : (composeEntry (fun _ _ => []) poolNew [] infoLevel ⟨0⟩).2.bytes =
      [108, 101, 118, 101, 108, 58, 73, 9, 109, 115, 103, 58, 10] := by
    simp [composeEntry, addTime, addLevel, addMessage, addKey, safeAddString,
      poolNew, levelBytes, infoLevel, debugLevel, warnLevel, errorLevel,
      panicLevel, fatalLevel, ltsvReplace_eq_flatMap, escSimpleByte,
      levelLabelDefault, messageLabelDefault]
  exact ⟨hinc [108, 101, 118, 101, 108, 58, 73, 9, 109, 115, 103, 58, 10] 0
    (by rw [hw1, hw2]) rfl (by decide), hf⟩
